import Mathlib

/-!
Verification of the diffwhisperer commit-message pipeline, a shallow
embedding of src/diffwhisperer/analyzer.py.  Python strings are modelled
as Lean strings and character lists; Python string methods used by the
source (str.strip, str.split, str.startswith, str.join) are embedded as
executable functions on character lists so that every pipeline stage is
computable and provable.
-/

namespace DiffWhisperer

/-- Whitespace characters recognised by Python str.strip with no
arguments (the ASCII fragment: space, tab, newline, carriage return,
vertical tab, form feed). -/
def isPyWS (c : Char) : Bool :=
  c = ' ' || c = '\t' || c = '\n' || c = '\r' || c = '\x0b' || c = '\x0c'

/-- Python str.lstrip on a character list: drop leading whitespace. -/
def lstrip (l : List Char) : List Char :=
  l.dropWhile isPyWS

/-- Python str.rstrip on a character list: drop trailing whitespace. -/
def rstrip (l : List Char) : List Char :=
  (l.reverse.dropWhile isPyWS).reverse

/-- Python str.strip on a character list. -/
def pyStripList (l : List Char) : List Char :=
  rstrip (lstrip l)

/-- Python str.strip on strings, as used by `message.strip()`,
`title.strip()` and `body.strip()` in the source. -/
def pyStrip (s : String) : String :=
  String.mk (pyStripList s.data)

/-- Split at the first occurrence of the blank-line separator, the model
of Python `message.split('\n\n', 1)`.  `none` means the separator does
not occur (the Python split yields a single part); `some (t, b)` means
the split yields the two parts `t` and `b`. -/
def splitTwoNL : List Char → Option (List Char × List Char)
  | [] => none
  | c :: rest =>
    if c = '\n' ∧ rest.head? = some '\n' then some ([], rest.tail)
    else (splitTwoNL rest).map (fun q => (c :: q.1, q.2))

/-- Whether the blank-line separator "\n\n" occurs in the list. -/
def hasTwoNL : List Char → Bool
  | [] => false
  | c :: rest => ((c == '\n') && (rest.head? == some '\n')) || hasTwoNL rest

theorem dropWhile_dropWhile_self {α : Type} (p : α → Bool) (l : List α) :
    List.dropWhile p (List.dropWhile p l) = List.dropWhile p l := by
  induction l with
  | nil => rfl
  | cons c rest ih =>
    cases h : p c with
    | true => simp [List.dropWhile_cons, h, ih]
    | false => simp [List.dropWhile_cons, h]

theorem head_dropWhile_ws {α : Type} (p : α → Bool) (l : List α) (c : α)
    (h : (List.dropWhile p l).head? = some c) : p c = false := by
  induction l with
  | nil => simp [List.dropWhile] at h
  | cons a rest ih =>
    rw [List.dropWhile_cons] at h
    by_cases hpa : p a = true
    · rw [if_pos hpa] at h
      exact ih h
    · rw [if_neg hpa] at h
      simp only [List.head?_cons, Option.some.injEq] at h
      subst h
      exact Bool.not_eq_true _ ▸ (Bool.eq_false_iff.mpr hpa)

theorem lstrip_cons_of_not_ws {c : Char} {l : List Char} (h : isPyWS c = false) :
    lstrip (c :: l) = c :: l := by
  unfold lstrip
  rw [List.dropWhile_cons, if_neg]
  simp [h]

theorem dropWhile_append_singleton {α : Type} (p : α → Bool) (c : α)
    (h : p c = false) (xs : List α) :
    List.dropWhile p (xs ++ [c]) = List.dropWhile p xs ++ [c] := by
  induction xs with
  | nil => simp [List.dropWhile, h]
  | cons a rest ih =>
    rw [List.cons_append, List.dropWhile_cons, List.dropWhile_cons]
    by_cases hpa : p a = true
    · rw [if_pos hpa, if_pos hpa, ih]
    · rw [if_neg hpa, if_neg hpa, List.cons_append]

theorem rstrip_cons_of_not_ws {c : Char} (l : List Char) (h : isPyWS c = false) :
    rstrip (c :: l) = c :: rstrip l := by
  unfold rstrip
  rw [List.reverse_cons, dropWhile_append_singleton isPyWS c h, List.reverse_append]
  rfl

theorem rstrip_decomp (l : List Char) :
    rstrip l ++ (l.reverse.takeWhile isPyWS).reverse = l := by
  unfold rstrip
  rw [← List.reverse_append, List.takeWhile_append_dropWhile, List.reverse_reverse]

theorem lstrip_decomp (l : List Char) :
    l.takeWhile isPyWS ++ lstrip l = l :=
  List.takeWhile_append_dropWhile isPyWS l

theorem head_rstrip (l : List Char) (c : Char) (r : List Char)
    (h : rstrip l = c :: r) : l.head? = some c := by
  have hd := rstrip_decomp l
  rw [h] at hd
  rw [← hd]
  rfl

theorem getLast_rstrip_ws (l : List Char) (c : Char)
    (h : (rstrip l).getLast? = some c) : isPyWS c = false := by
  unfold rstrip at h
  rw [List.getLast?_reverse] at h
  exact head_dropWhile_ws isPyWS l.reverse c h

theorem rstrip_eq_self_of_getLast (l : List Char) (c : Char)
    (hc : l.getLast? = some c) (hw : isPyWS c = false) : rstrip l = l := by
  unfold rstrip
  rw [← List.head?_reverse] at hc
  cases hr : l.reverse with
  | nil => rw [hr] at hc; simp at hc
  | cons a t =>
    rw [hr] at hc
    simp only [List.head?_cons, Option.some.injEq] at hc
    subst hc
    rw [List.dropWhile_cons, if_neg (by simp [hw]), ← hr, List.reverse_reverse]

theorem pyStripList_idem (l : List Char) :
    pyStripList (pyStripList l) = pyStripList l := by
  unfold pyStripList
  cases hm : rstrip (lstrip l) with
  | nil => simp [lstrip, List.dropWhile, rstrip]
  | cons c r =>
    have hc : (lstrip l).head? = some c := head_rstrip (lstrip l) c r hm
    have hw : isPyWS c = false := head_dropWhile_ws isPyWS l c hc
    rw [← hm, hm, lstrip_cons_of_not_ws hw, ← hm]
    unfold rstrip
    rw [List.reverse_reverse, dropWhile_dropWhile_self]

theorem head_pyStripList_ws (l : List Char) (c : Char)
    (h : (pyStripList l).head? = some c) : isPyWS c = false := by
  unfold pyStripList at h
  cases hm : rstrip (lstrip l) with
  | nil => rw [hm] at h; simp at h
  | cons a r =>
    rw [hm] at h
    simp only [List.head?_cons, Option.some.injEq] at h
    subst h
    exact head_dropWhile_ws isPyWS l a (head_rstrip (lstrip l) a r hm)

theorem getLast_pyStripList_ws (l : List Char) (c : Char)
    (h : (pyStripList l).getLast? = some c) : isPyWS c = false :=
  getLast_rstrip_ws (lstrip l) c h

theorem pyStripList_infix (l : List Char) :
    l.takeWhile isPyWS ++ (pyStripList l ++ ((lstrip l).reverse.takeWhile isPyWS).reverse) = l := by
  unfold pyStripList
  rw [rstrip_decomp (lstrip l), lstrip_decomp l]

theorem hasTwoNL_cons (c : Char) (rest : List Char) :
    hasTwoNL (c :: rest) =
      (((c == '\n') && (rest.head? == some '\n')) || hasTwoNL rest) := rfl

theorem splitTwoNL_cons (c : Char) (rest : List Char) :
    splitTwoNL (c :: rest) =
      if c = '\n' ∧ rest.head? = some '\n' then some ([], rest.tail)
      else (splitTwoNL rest).map (fun q => (c :: q.1, q.2)) := rfl

theorem pyStripList_eq_nil_iff (l : List Char) :
    pyStripList l = [] ↔ ∀ c ∈ l, isPyWS c = true := by
  unfold pyStripList rstrip
  rw [List.reverse_eq_nil_iff, List.dropWhile_eq_nil_iff]
  constructor
  · intro h c hc
    rw [← lstrip_decomp l] at hc
    rcases List.mem_append.mp hc with h1 | h1
    · exact List.mem_takeWhile_imp h1
    · exact h c (List.mem_reverse.mpr h1)
  · intro h c hc
    rw [List.mem_reverse] at hc
    exact h c ((List.dropWhile_sublist isPyWS).mem hc)

theorem hasTwoNL_iff_sep (l : List Char) :
    hasTwoNL l = true ↔ ['\n', '\n'] <:+: l := by
  induction l with
  | nil =>
    simp only [hasTwoNL]
    constructor
    · intro h; exact absurd h (by simp)
    · intro h
      have := h.sublist.length_le
      simp at this
  | cons c rest ih =>
    rw [ List.infix_cons_iff]
    simp only [hasTwoNL, Bool.or_eq_true, Bool.and_eq_true, beq_iff_eq]
    constructor
    · rintro (⟨hc, hh⟩ | h)
      · left
        subst hc
        cases rest with
        | nil => simp at hh
        | cons d t =>
          simp only [List.head?_cons, Option.some.injEq] at hh
          subst hh
          exact ⟨t, rfl⟩
      · right; exact ih.mp h
    · rintro (⟨t, ht⟩ | h)
      · left
        cases ht
        exact ⟨rfl, rfl⟩
      · right; exact ih.mpr h

theorem hasTwoNL_false_of_append (x y : List Char)
    (h : hasTwoNL (x ++ y) = false) : hasTwoNL x = false := by
  by_contra hx
  rw [Bool.not_eq_false, hasTwoNL_iff_sep] at hx
  rw [Bool.eq_false_iff] at h
  exact h (by rw [hasTwoNL_iff_sep]; exact hx.trans ⟨[], y, by simp⟩)

theorem hasTwoNL_infix_false {x y : List Char} (hinf : x <:+: y)
    (h : hasTwoNL y = false) : hasTwoNL x = false := by
  by_contra hx
  rw [Bool.not_eq_false, hasTwoNL_iff_sep] at hx
  rw [Bool.eq_false_iff] at h
  exact h (by rw [hasTwoNL_iff_sep]; exact hx.trans hinf)

theorem pyStripList_isInfix (l : List Char) : pyStripList l <:+: l := by
  refine ⟨l.takeWhile isPyWS, ((lstrip l).reverse.takeWhile isPyWS).reverse, ?_⟩
  have h := pyStripList_infix l
  rw [← List.append_assoc] at h
  exact h

theorem splitTwoNL_eq_none_iff (l : List Char) :
    splitTwoNL l = none ↔ hasTwoNL l = false := by
  induction l with
  | nil => simp [splitTwoNL, hasTwoNL]
  | cons c rest ih =>
    simp only [splitTwoNL, hasTwoNL]
    by_cases h : c = '\n' ∧ rest.head? = some '\n'
    · rw [if_pos h]
      simp [h.1, h.2]
    · rw [if_neg h]
      simp only [Option.map_eq_none', ih, Bool.or_eq_false_iff, Bool.and_eq_false_iff]
      constructor
      · intro hr
        refine ⟨?_, hr⟩
        by_cases hc : c = '\n'
        · right
          rw [beq_eq_false_iff_ne]
          intro hh
          exact h ⟨hc, hh⟩
        · left
          rw [beq_eq_false_iff_ne]
          exact hc
      · intro hr
        exact hr.2

theorem splitTwoNL_some_spec (l : List Char) :
    ∀ t b, splitTwoNL l = some (t, b) →
      l = t ++ '\n' :: '\n' :: b ∧ hasTwoNL (t ++ ['\n']) = false := by
  induction l with
  | nil => intro t b h; simp [splitTwoNL] at h
  | cons c rest ih =>
    intro t b h
    simp only [splitTwoNL] at h
    by_cases hc : c = '\n' ∧ rest.head? = some '\n'
    · rw [if_pos hc] at h
      simp only [Option.some.injEq, Prod.mk.injEq] at h
      obtain ⟨ht, hb⟩ := h
      subst ht
      subst hb
      cases rest with
      | nil => simp at hc
      | cons d tl =>
        simp only [List.head?_cons, Option.some.injEq] at hc
        obtain ⟨hc1, hc2⟩ := hc
        subst hc1
        subst hc2
        exact ⟨rfl, by simp [hasTwoNL]⟩
    · rw [if_neg hc] at h
      cases hs : splitTwoNL rest with
      | none => rw [hs] at h; simp at h
      | some q =>
        rw [hs] at h
        simp only [Option.map_some', Option.some.injEq] at h
        obtain ⟨t₀, b₀⟩ := q
        obtain ⟨ha, hb⟩ := ih t₀ b₀ hs
        simp only [Prod.mk.injEq] at h
        obtain ⟨ht, hb'⟩ := h
        subst ht
        subst hb'
        constructor
        · rw [List.cons_append, ha]
        · rw [List.cons_append, hasTwoNL_cons, Bool.or_eq_false_iff]
          refine ⟨?_, hb⟩
          rw [Bool.and_eq_false_iff]
          by_cases hcn : c = '\n'
          · right
            rw [beq_eq_false_iff_ne]
            intro hh
            apply hc
            refine ⟨hcn, ?_⟩
            rw [ha]
            cases t₀ with
            | nil =>
              simp only [List.nil_append, List.head?_cons] at hh ⊢
            | cons d tl =>
              simp only [List.cons_append, List.head?_cons] at hh ⊢
              exact hh
          · left
            rw [beq_eq_false_iff_ne]
            exact hcn

theorem splitTwoNL_insert (b : List Char) :
    ∀ t, hasTwoNL (t ++ ['\n']) = false →
      splitTwoNL (t ++ '\n' :: '\n' :: b) = some (t, b) := by
  intro t
  induction t with
  | nil =>
    intro _
    simp [splitTwoNL]
  | cons c t' ih =>
    intro h
    rw [List.cons_append, hasTwoNL_cons, Bool.or_eq_false_iff] at h
    obtain ⟨h1, h2⟩ := h
    rw [Bool.and_eq_false_iff] at h1
    rw [List.cons_append, splitTwoNL_cons, if_neg, ih h2, Option.map_some']
    · rintro ⟨hc, hh⟩
      rcases h1 with hb | hb
      · rw [beq_eq_false_iff_ne] at hb
        exact hb hc
      · rw [beq_eq_false_iff_ne] at hb
        apply hb
        cases t' with
        | nil =>
          simp only [List.nil_append, List.head?_cons] at hh ⊢
        | cons d tl =>
          simp only [List.cons_append, List.head?_cons] at hh ⊢
          exact hh

/-- The response-formatting step of generate_commit_message
(analyzer.py lines 148-159) on character lists: strip the raw response,
split once at the first blank-line separator; when no separator occurs
the stripped text is returned whole, otherwise the title and body parts
are stripped independently and rejoined with a single blank line. -/
def format_list (l : List Char) : List Char :=
  let m := pyStripList l
  match splitTwoNL m with
  | none => m
  | some (t, b) => pyStripList t ++ '\n' :: '\n' :: pyStripList b

/-- The response-formatting step on strings. -/
def format_message (raw : String) : String :=
  String.mk (format_list raw.data)

/-- Title part of a message: the text before the first blank-line
separator, or the whole message when no separator occurs. -/
def msg_title (s : String) : String :=
  match splitTwoNL s.data with
  | none => s
  | some (t, _) => String.mk t

theorem format_list_none (l : List Char)
    (h : splitTwoNL (pyStripList l) = none) : format_list l = pyStripList l := by
  simp only [format_list, h]

theorem format_list_some (l t b : List Char)
    (h : splitTwoNL (pyStripList l) = some (t, b)) :
    format_list l = pyStripList t ++ '\n' :: '\n' :: pyStripList b := by
  simp only [format_list, h]

theorem mk_eq_empty_iff (x : List Char) : String.mk x = "" ↔ x = [] := by
  constructor
  · intro h
    exact congrArg String.data h
  · intro h
    rw [h]

theorem pyStripList_eq_self (l : List Char)
    (h1 : ∀ c, l.head? = some c → isPyWS c = false)
    (h2 : ∀ c, l.getLast? = some c → isPyWS c = false) :
    pyStripList l = l := by
  cases l with
  | nil => rfl
  | cons c r =>
    have hw := h1 c rfl
    unfold pyStripList
    rw [lstrip_cons_of_not_ws hw]
    cases hg : (c :: r).getLast? with
    | none => simp at hg
    | some d => exact rstrip_eq_self_of_getLast _ d hg (h2 d hg)

theorem hasTwoNL_append_nl (x : List Char) (hx : hasTwoNL x = false)
    (hl : ∀ e, x.getLast? = some e → e ≠ '\n') :
    hasTwoNL (x ++ ['\n']) = false := by
  induction x with
  | nil => decide
  | cons c x' ih =>
    rw [hasTwoNL_cons, Bool.or_eq_false_iff] at hx
    obtain ⟨hx1, hx2⟩ := hx
    rw [List.cons_append, hasTwoNL_cons, Bool.or_eq_false_iff]
    refine ⟨?_, ih hx2 ?_⟩
    · cases x' with
      | nil =>
        rw [Bool.and_eq_false_iff]
        left
        rw [beq_eq_false_iff_ne]
        exact hl c rfl
      | cons d x'' =>
        simp only [List.cons_append, List.head?_cons] at hx1 ⊢
        exact hx1
    · intro e he
      apply hl e
      cases x' with
      | nil => simp at he
      | cons d x'' =>
        rw [List.getLast?_cons_cons]
        exact he

theorem split_strip_facts (l t b : List Char)
    (h : splitTwoNL (pyStripList l) = some (t, b)) :
    pyStripList t ≠ [] ∧ pyStripList b ≠ [] ∧
      hasTwoNL (pyStripList t ++ ['\n']) = false := by
  obtain ⟨hm, hnn⟩ := splitTwoNL_some_spec _ t b h
  have ht_ne : pyStripList t ≠ [] := by
    cases t with
    | nil =>
      exfalso
      rw [List.nil_append] at hm
      have hw : isPyWS '\n' = false := head_pyStripList_ws l '\n' (by rw [hm]; rfl)
      simp [isPyWS] at hw
    | cons c t₂ =>
      have hc : (pyStripList l).head? = some c := by rw [hm]; rfl
      have hwc : isPyWS c = false := head_pyStripList_ws l c hc
      unfold pyStripList
      rw [lstrip_cons_of_not_ws hwc, rstrip_cons_of_not_ws t₂ hwc]
      simp
  have hb_ne : pyStripList b ≠ [] := by
    have hbd : ∃ d, b.getLast? = some d ∧ isPyWS d = false := by
      cases hbl : b.getLast? with
      | none =>
        exfalso
        rw [List.getLast?_eq_none_iff] at hbl
        subst hbl
        have hg : (pyStripList l).getLast? = some '\n' := by
          rw [hm]
          rw [List.getLast?_append_of_ne_nil t (by simp)]
          rfl
        have hw := getLast_pyStripList_ws l '\n' hg
        simp [isPyWS] at hw
      | some d =>
        have hbne : b ≠ [] := by
          intro hb0
          rw [hb0] at hbl
          simp at hbl
        have hg : (pyStripList l).getLast? = some d := by
          rw [hm]
          rw [List.getLast?_append_of_ne_nil t (by simp)]
          rw [show ('\n' :: '\n' :: b) = ['\n', '\n'] ++ b from rfl]
          rw [List.getLast?_append_of_ne_nil _ hbne]
          exact hbl
        exact ⟨d, rfl, getLast_pyStripList_ws l d hg⟩
    obtain ⟨d, hbl, hwd⟩ := hbd
    rw [Ne, pyStripList_eq_nil_iff]
    intro hall
    have hdb : d ∈ b := by
      obtain ⟨hne, hd⟩ := List.mem_getLast?_eq_getLast (show d ∈ b.getLast? from hbl)
      rw [hd]
      exact List.getLast_mem hne
    rw [hall d hdb] at hwd
    cases hwd
  have hT : hasTwoNL (pyStripList t) = false :=
    hasTwoNL_infix_false (pyStripList_isInfix t) (hasTwoNL_false_of_append t ['\n'] hnn)
  refine ⟨ht_ne, hb_ne, hasTwoNL_append_nl _ hT ?_⟩
  intro e he hne
  subst hne
  have := getLast_pyStripList_ws t '\n' he
  simp [isPyWS] at this

theorem format_list_idem (l : List Char) :
    format_list (format_list l) = format_list l := by
  cases h : splitTwoNL (pyStripList l) with
  | none =>
    rw [format_list_none l h]
    rw [format_list_none (pyStripList l) (by rw [pyStripList_idem]; exact h)]
    exact pyStripList_idem l
  | some q =>
    obtain ⟨t, b⟩ := q
    obtain ⟨ht_ne, hb_ne, hcat⟩ := split_strip_facts l t b h
    rw [format_list_some l t b h]
    have hstrip : pyStripList (pyStripList t ++ '\n' :: '\n' :: pyStripList b) =
        pyStripList t ++ '\n' :: '\n' :: pyStripList b := by
      apply pyStripList_eq_self
      · intro c hc
        rw [List.head?_append_of_ne_nil _ ht_ne] at hc
        exact head_pyStripList_ws t c hc
      · intro c hc
        rw [show (pyStripList t ++ '\n' :: '\n' :: pyStripList b) =
          pyStripList t ++ ['\n', '\n'] ++ pyStripList b from
          (List.append_assoc (pyStripList t) ['\n', '\n'] (pyStripList b)).symm] at hc
        rw [List.getLast?_append_of_ne_nil _ hb_ne] at hc
        exact getLast_pyStripList_ws b c hc
    have hsplit : splitTwoNL (pyStripList t ++ '\n' :: '\n' :: pyStripList b) =
        some (pyStripList t, pyStripList b) := splitTwoNL_insert _ _ hcat
    simp only [format_list, hstrip, hsplit, pyStripList_idem]

/-- C10: the response-formatting step is idempotent: applying the trim /
split-at-first-blank-line / trim-parts / rejoin transformation to its
own output returns that output unchanged, for every raw string. -/
theorem spec_C10 (raw : String) :
    format_message (format_message raw) = format_message raw :=
  congrArg String.mk (format_list_idem raw.data)

theorem msg_title_of_none (s : String) (h : splitTwoNL s.data = none) :
    msg_title s = s := by
  unfold msg_title
  rw [h]

theorem msg_title_of_some (s : String) (t b : List Char)
    (h : splitTwoNL s.data = some (t, b)) : msg_title s = String.mk t := by
  unfold msg_title
  rw [h]

/-- C4: the formatting step trims the raw response, splits at the first
occurrence of two consecutive newlines into at most two parts, and
(1) with no separator returns the whole trimmed text as the sole title
output; (2) otherwise returns the independently trimmed title and body
rejoined as title, blank line, body; in particular the raw response
"Title line\n\nBody para one.\n\nBody para two." yields title
"Title line" and body "Body para one.\n\nBody para two.". -/
theorem spec_C4 :
    (∀ raw : String, splitTwoNL (pyStripList raw.data) = none →
      format_message raw = pyStrip raw) ∧
    (∀ (raw : String) (t b : List Char),
      splitTwoNL (pyStripList raw.data) = some (t, b) →
      format_message raw =
        String.mk (pyStripList t) ++ "\n\n" ++ String.mk (pyStripList b)) ∧
    format_message "Title line\n\nBody para one.\n\nBody para two." =
      "Title line" ++ "\n\n" ++ "Body para one.\n\nBody para two." := by
  refine ⟨?_, ?_, ?_⟩
  · intro raw h
    exact congrArg String.mk (format_list_none raw.data h)
  · intro raw t b h
    calc format_message raw
        = String.mk (pyStripList t ++ '\n' :: '\n' :: pyStripList b) :=
          congrArg String.mk (format_list_some raw.data t b h)
      _ = String.mk ((pyStripList t ++ ['\n', '\n']) ++ pyStripList b) :=
          congrArg String.mk
            (List.append_assoc (pyStripList t) ['\n', '\n'] (pyStripList b)).symm
      _ = String.mk (pyStripList t) ++ "\n\n" ++ String.mk (pyStripList b) := rfl
  · decide

theorem spec_C4_witness :
    format_message "abc" = pyStrip "abc" ∧
      format_message "x\n\nB y" = String.mk (pyStripList "x".data) ++ "\n\n" ++
        String.mk (pyStripList "B y".data) :=
  ⟨spec_C4.1 "abc" (by decide),
   spec_C4.2.1 "x\n\nB y" "x".data "B y".data (by decide)⟩

/-- C5: whenever the backend response contains a non-whitespace
character, the title part of the formatted commit message is non-empty;
and whenever the response contains no blank-line separator, the result
is the stripped response alone, still without separator (title alone,
no body). -/
theorem spec_C5 (raw : String) :
    (raw.data.any (fun c => !isPyWS c) = true →
      msg_title (format_message raw) ≠ "") ∧
    (hasTwoNL raw.data = false →
      format_message raw = pyStrip raw ∧
        hasTwoNL (format_message raw).data = false) := by
  constructor
  · intro hany
    have hne : pyStripList raw.data ≠ [] := by
      rw [Ne, pyStripList_eq_nil_iff]
      intro hall
      obtain ⟨c, hc, hw⟩ := List.any_eq_true.mp hany
      rw [hall c hc] at hw
      simp at hw
    cases h : splitTwoNL (pyStripList raw.data) with
    | none =>
      have hf : format_message raw = String.mk (pyStripList raw.data) :=
        congrArg String.mk (format_list_none raw.data h)
      rw [hf, msg_title_of_none (String.mk (pyStripList raw.data))
        (show splitTwoNL (String.mk (pyStripList raw.data)).data = none from h)]
      rw [Ne, mk_eq_empty_iff]
      exact hne
    | some q =>
      obtain ⟨t, b⟩ := q
      obtain ⟨ht_ne, hb_ne, hcat⟩ := split_strip_facts raw.data t b h
      have hf : format_message raw =
          String.mk (pyStripList t ++ '\n' :: '\n' :: pyStripList b) :=
        congrArg String.mk (format_list_some raw.data t b h)
      rw [hf, msg_title_of_some
        (String.mk (pyStripList t ++ '\n' :: '\n' :: pyStripList b))
        (pyStripList t) (pyStripList b)
        (show splitTwoNL
            (String.mk (pyStripList t ++ '\n' :: '\n' :: pyStripList b)).data =
          some (pyStripList t, pyStripList b) from splitTwoNL_insert _ _ hcat)]
      rw [Ne, mk_eq_empty_iff]
      exact ht_ne
  · intro hno
    have hm : hasTwoNL (pyStripList raw.data) = false :=
      hasTwoNL_infix_false (pyStripList_isInfix raw.data) hno
    have hsn : splitTwoNL (pyStripList raw.data) = none :=
      (splitTwoNL_eq_none_iff _).mpr hm
    have hf : format_message raw = pyStrip raw :=
      congrArg String.mk (format_list_none raw.data hsn)
    exact ⟨hf, by rw [hf]; exact hm⟩

theorem spec_C5_witness :
    msg_title (format_message "  hi there  ") ≠ "" ∧
      format_message "one line" = pyStrip "one line" :=
  ⟨(spec_C5 "  hi there  ").1 (by decide),
   ((spec_C5 "one line").2 (by decide)).1⟩

/-- Split a character list at every occurrence of a separator character,
the model of Python `s.split(sep)` for a single-character separator
(an empty input yields one empty part, as in Python). -/
def splitChar (sep : Char) : List Char → List (List Char)
  | [] => [[]]
  | c :: rest =>
    let r := splitChar sep rest
    if c = sep then [] :: r
    else
      match r with
      | [] => [[c]]
      | x :: xs => (c :: x) :: xs

/-- Components of a POSIX path as produced by Python
`pathlib.Path(p).parts`: split at slashes, drop empty and single-dot
components, and keep a leading root component for absolute paths. -/
def pathParts (p : String) : List String :=
  let comps := ((splitChar '/' p.data).map String.mk).filter
    (fun s => s != "" && s != ".")
  if p.data.head? = some '/' then "/" :: comps else comps

/-- Python `pathlib.Path(p).name`: the final path component, empty for
the bare root. -/
def pathName (p : String) : String :=
  match (pathParts p).getLast? with
  | some s => if s = "/" then "" else s
  | none => ""

/-- The per-file scope candidates of `_determine_scope` (analyzer.py
line 40): the first path component when the path has more than one
component, else the fallback "misc". -/
def scopeDirs (changed_files : List String) : List String :=
  changed_files.map (fun f =>
    let parts := pathParts f
    if parts.length > 1 then parts.headD "misc" else "misc")

/-- The fold behind the stable most-common selection: scan the
candidates left to right keeping the current best, replacing it only
when a strictly larger count (taken over the full list `l`) appears. -/
def pickMax (l : List String) (b : String) : List String → String
  | [] => b
  | y :: ys => pickMax l (if l.count b < l.count y then y else b) ys

/-- Python `Counter(dirs).most_common(1)[0][0]` (analyzer.py lines
43-44): the most frequent element, ties broken by first-encountered
order; `none` on the empty list. -/
def mostCommon : List String → Option String
  | [] => none
  | x :: xs => some (pickMax (x :: xs) x xs)

/-- `DiffAnalyzer._determine_scope` (analyzer.py lines 34-44). -/
def determine_scope (changed_files : List String) : String :=
  if changed_files.isEmpty then "misc"
  else (mostCommon (scopeDirs changed_files)).getD "misc"

theorem pickMax_cases (l : List String) :
    ∀ (ys : List String) (b : String),
      (pickMax l b ys = b ∧ ∀ y ∈ ys, l.count y ≤ l.count b) ∨
      (∃ ys₁ r ys₂, ys = ys₁ ++ r :: ys₂ ∧ pickMax l b ys = r ∧
        l.count b < l.count r ∧ (∀ y ∈ ys₁, l.count y < l.count r) ∧
        (∀ y ∈ ys₂, l.count y ≤ l.count r)) := by
  intro ys
  induction ys with
  | nil =>
    intro b
    left
    exact ⟨rfl, by simp⟩
  | cons y ys ih =>
    intro b
    by_cases hby : l.count b < l.count y
    · have hstep : pickMax l b (y :: ys) = pickMax l y ys := by
        simp [pickMax, hby]
      rcases ih y with ⟨he, hbound⟩ | ⟨ys₁, r, ys₂, hys, he, hbr, h1, h2⟩
      · right
        refine ⟨[], y, ys, rfl, by rw [hstep, he], hby, by simp, ?_⟩
        intro z hz
        exact he ▸ hbound z hz
      · right
        refine ⟨y :: ys₁, r, ys₂, by rw [hys, List.cons_append], by rw [hstep, he], ?_, ?_, h2⟩
        · exact lt_trans hby hbr
        · intro z hz
          rcases List.mem_cons.mp hz with hz | hz
          · rw [hz]
            exact hbr
          · exact h1 z hz
    · have hstep : pickMax l b (y :: ys) = pickMax l b ys := by
        simp [pickMax, hby]
      rcases ih b with ⟨he, hbound⟩ | ⟨ys₁, r, ys₂, hys, he, hbr, h1, h2⟩
      · left
        refine ⟨by rw [hstep, he], ?_⟩
        intro z hz
        rcases List.mem_cons.mp hz with hz | hz
        · rw [hz]
          exact Nat.le_of_not_lt hby
        · exact hbound z hz
      · right
        refine ⟨y :: ys₁, r, ys₂, by rw [hys, List.cons_append], by rw [hstep, he], hbr, ?_, h2⟩
        intro z hz
        rcases List.mem_cons.mp hz with hz | hz
        · rw [hz]
          exact lt_of_le_of_lt (Nat.le_of_not_lt hby) hbr
        · exact h1 z hz

theorem mostCommon_spec (l : List String) (r : String)
    (h : mostCommon l = some r) :
    r ∈ l ∧ (∀ y ∈ l, l.count y ≤ l.count r) ∧
      (∀ y ∈ l, l.count y = l.count r →
        l.indexOf r ≤ l.indexOf y) := by
  cases l with
  | nil => simp [mostCommon] at h
  | cons x xs =>
    simp only [mostCommon, Option.some.injEq] at h
    rcases pickMax_cases (x :: xs) xs x with ⟨he, hbound⟩ | ⟨ys₁, r₀, ys₂, hys, he, hbr, h1, h2⟩
    · rw [he] at h
      subst h
      refine ⟨List.mem_cons_self x xs, ?_, ?_⟩
      · intro y hy
        rcases List.mem_cons.mp hy with hy | hy
        · rw [hy]
        · exact hbound y hy
      · intro y _ _
        rw [List.indexOf_cons_self]
        exact Nat.zero_le _
    · rw [he] at h
      subst h
      have hl : x :: xs = (x :: ys₁) ++ r₀ :: ys₂ := by
        rw [hys, List.cons_append]
      have hrmem : r₀ ∈ x :: xs := by
        rw [hl]
        exact List.mem_append_right _ (List.mem_cons_self r₀ ys₂)
      have hrnot : r₀ ∉ x :: ys₁ := by
        intro hmem
        rcases List.mem_cons.mp hmem with hx | hx
        · rw [← hx] at hbr
          exact absurd hbr (lt_irrefl _)
        · exact absurd (h1 r₀ hx) (lt_irrefl _)
      refine ⟨hrmem, ?_, ?_⟩
      · intro y hy
        rw [hl] at hy
        rcases List.mem_append.mp hy with hy | hy
        · rcases List.mem_cons.mp hy with hy | hy
          · rw [hy]
            exact le_of_lt hbr
          · exact le_of_lt (h1 y hy)
        · rcases List.mem_cons.mp hy with hy | hy
          · rw [hy]
          · exact h2 y hy
      · intro y hy hcy
        by_cases hyr : y = r₀
        · rw [hyr]
        · have hynot : y ∉ x :: ys₁ := by
            intro hmem
            rcases List.mem_cons.mp hmem with hx | hx
            · subst hx
              rw [hcy] at hbr
              exact absurd hbr (lt_irrefl _)
            · have hlt := h1 y hx
              rw [hcy] at hlt
              exact absurd hlt (lt_irrefl _)
          rw [hl, List.indexOf_append_of_not_mem hrnot,
            List.indexOf_append_of_not_mem hynot]
          apply Nat.add_le_add_left
          rw [List.indexOf_cons_self]
          exact Nat.zero_le _

/-- C3: `_determine_scope` returns the most frequently occurring first
path segment among the given paths (single-segment paths contribute the
fallback "misc"), ties broken by first-encountered order; the paths
["src/a.py", "src/b.py", "docs/c.md"] yield "src", ["readme.md"] yields
"misc", and the empty list yields "misc". -/
theorem spec_C3 :
    determine_scope ["src/a.py", "src/b.py", "docs/c.md"] = "src" ∧
    determine_scope ["readme.md"] = "misc" ∧
    determine_scope [] = "misc" ∧
    ∀ files : List String, files ≠ [] →
      determine_scope files ∈ scopeDirs files ∧
      (∀ y ∈ scopeDirs files,
        (scopeDirs files).count y ≤ (scopeDirs files).count (determine_scope files)) ∧
      (∀ y ∈ scopeDirs files,
        (scopeDirs files).count y = (scopeDirs files).count (determine_scope files) →
        (scopeDirs files).indexOf (determine_scope files) ≤ (scopeDirs files).indexOf y) := by
  refine ⟨by decide, by decide, by decide, ?_⟩
  intro files hne
  cases files with
  | nil => exact absurd rfl hne
  | cons f fs =>
    cases hmc : mostCommon (scopeDirs (f :: fs)) with
    | none =>
      exfalso
      have hsd : scopeDirs (f :: fs) =
          (let parts := pathParts f
           if parts.length > 1 then parts.headD "misc" else "misc") ::
            scopeDirs fs := rfl
      rw [hsd] at hmc
      simp [mostCommon] at hmc
    | some r =>
      have hds : determine_scope (f :: fs) = r := by
        unfold determine_scope
        rw [if_neg (by simp), hmc]
        rfl
      rw [hds]
      exact mostCommon_spec _ r hmc

theorem spec_C3_witness :
    determine_scope ["a/b.c"] ∈ scopeDirs ["a/b.c"] :=
  (spec_C3.2.2.2 ["a/b.c"] (by decide)).1

/-- Python `sep.join(parts)`. -/
def pyJoin (sep : String) : List String → String
  | [] => ""
  | [x] => x
  | x :: y :: rest => x ++ sep ++ pyJoin sep (y :: rest)

/-- The per-file block of `DiffAnalyzer._prepare_diff_summary`
(analyzer.py lines 48-66): header with the bare filename, a count
suffix exactly when an added or removed line exists, and up to the
first three changed lines under a "Changes:" label. -/
def file_summary (file_path diff : String) : String :=
  let filename := pathName file_path
  let lines := splitChar '\n' diff.data
  let added := (lines.filter (fun l => l.head? == some '+')).length
  let removed := (lines.filter (fun l => l.head? == some '-')).length
  let base := "File: " ++ filename
  let summary :=
    if added ≠ 0 ∨ removed ≠ 0 then
      base ++ " (" ++ toString added ++ " added, " ++ toString removed ++ " removed)"
    else base
  let change_lines :=
    (lines.filter (fun l => l.head? == some '+' || l.head? == some '-')).take 3
  if change_lines.isEmpty then summary
  else summary ++ "\nChanges:\n" ++ pyJoin "\n" (change_lines.map String.mk)

/-- `DiffAnalyzer._prepare_diff_summary` (analyzer.py lines 46-69):
one block per staged file, blocks joined by one blank line. -/
def prepare_diff_summary (staged_changes : List (String × String)) : String :=
  pyJoin "\n\n" (staged_changes.map (fun e => file_summary e.1 e.2))

/-- C2: for a staged entry whose diff text splits into the lines
["+a", "+b", "-c", "+d", "-e"], its digest block is the header
"File: <filename> (3 added, 2 removed)" followed by exactly the first
three of those lines under a "Changes:" label; the count suffix is
absent when both counts are zero; and the file blocks of the digest
are joined by one blank line. -/
theorem spec_C2 :
    (∀ fp : String, file_summary fp "+a\n+b\n-c\n+d\n-e" =
      "File: " ++ pathName fp ++ " (3 added, 2 removed)" ++
        "\nChanges:\n" ++ "+a\n+b\n-c") ∧
    (∀ fp : String, file_summary fp "" = "File: " ++ pathName fp) ∧
    ∀ staged_changes : List (String × String),
      prepare_diff_summary staged_changes =
        pyJoin "\n\n" (staged_changes.map (fun e => file_summary e.1 e.2)) := by
  refine ⟨?_, ?_, fun _ => rfl⟩
  · intro fp
    have h1 : file_summary fp "+a\n+b\n-c\n+d\n-e" =
        "File: " ++ pathName fp ++ " (" ++ "3" ++ " added, " ++ "2" ++
          " removed)" ++ "\nChanges:\n" ++
          ("+a" ++ "\n" ++ ("+b" ++ "\n" ++ "-c")) := rfl
    refine h1.trans ?_
    simp only [String.append_assoc]
    congr 1
  · intro fp
    rfl

/-- One entry of a GitPython diff collection: only the source path is
consulted by the collector (`diff_item.a_path`), which in Python is a
string or None. -/
structure DiffItem where
  a_path : Option String

/-- The repository as seen by `get_staged_changes`: the staged-vs-HEAD
diff entries (`repo.index.diff("HEAD")`), the further entries for newly
created files (`repo.index.diff(None)`), and the cached diff text the
VCS returns for a path (`repo.git.diff("--cached", path)`). -/
structure RepoState where
  head_diff : List DiffItem
  none_diff : List DiffItem
  cached_diff : String → String

/-- Python dict assignment `d[k] = v`: update in place when the key is
present (keeping its position), else append the binding. -/
def dictInsert (d : List (String × String)) (k v : String) :
    List (String × String) :=
  if d.any (fun e => e.1 == k) then
    d.map (fun e => if e.1 == k then (k, v) else e)
  else d ++ [(k, v)]

/-- The loop body of `get_staged_changes` (analyzer.py lines 80-82):
skip entries whose a_path is falsy (None or empty), otherwise record
the cached diff for the path. -/
def stagedStep (repo : RepoState) (acc : List (String × String))
    (item : DiffItem) : List (String × String) :=
  match item.a_path with
  | none => acc
  | some p => if p = "" then acc else dictInsert acc p (repo.cached_diff p)

/-- `DiffAnalyzer.get_staged_changes` (analyzer.py lines 71-85): walk
the staged-vs-HEAD entries extended with the new-file entries, building
the path-to-cached-diff mapping. -/
def get_staged_changes (repo : RepoState) : List (String × String) :=
  (repo.head_diff ++ repo.none_diff).foldl (stagedStep repo) []

theorem dictInsert_ne_nil (d : List (String × String)) (k v : String) :
    dictInsert d k v ≠ [] := by
  unfold dictInsert
  by_cases h : d.any (fun e => e.1 == k) = true
  · rw [if_pos h]
    intro hm
    rw [List.map_eq_nil_iff] at hm
    rw [hm] at h
    simp at h
  · rw [if_neg h]
    simp

theorem dictInsert_mem_self (d : List (String × String)) (k v : String) :
    (k, v) ∈ dictInsert d k v := by
  unfold dictInsert
  by_cases h : d.any (fun e => e.1 == k) = true
  · rw [if_pos h]
    obtain ⟨e, he, hek⟩ := List.any_eq_true.mp h
    refine List.mem_map.mpr ⟨e, he, ?_⟩
    rw [if_pos hek]
  · rw [if_neg h]
    exact List.mem_append_right _ (List.mem_singleton.mpr rfl)

theorem dictInsert_mem_preserve (d : List (String × String)) (k p : String)
    (f : String → String) (h : (p, f p) ∈ d) :
    (p, f p) ∈ dictInsert d k (f k) := by
  unfold dictInsert
  by_cases ha : d.any (fun e => e.1 == k) = true
  · rw [if_pos ha]
    refine List.mem_map.mpr ⟨(p, f p), h, ?_⟩
    by_cases hpk : p = k
    · subst hpk
      simp
    · rw [if_neg]
      simp [hpk]
  · rw [if_neg ha]
    exact List.mem_append_left _ h

theorem dictInsert_sound (d : List (String × String)) (k v : String)
    (P : String × String → Prop) (hd : ∀ e ∈ d, P e) (hk : P (k, v)) :
    ∀ e ∈ dictInsert d k v, P e := by
  intro e he
  unfold dictInsert at he
  by_cases ha : d.any (fun x => x.1 == k) = true
  · rw [if_pos ha] at he
    obtain ⟨e₀, he₀, heq⟩ := List.mem_map.mp he
    by_cases h0 : e₀.1 == k
    · rw [if_pos h0] at heq
      rw [← heq]
      exact hk
    · rw [if_neg h0] at heq
      rw [← heq]
      exact hd e₀ he₀
  · rw [if_neg ha] at he
    rcases List.mem_append.mp he with he | he
    · exact hd e he
    · rw [List.mem_singleton.mp he]
      exact hk

theorem stagedStep_none (repo : RepoState) (acc : List (String × String))
    (it : DiffItem) (h : it.a_path = none) : stagedStep repo acc it = acc := by
  obtain ⟨ap⟩ := it
  cases h
  rfl

theorem stagedStep_some (repo : RepoState) (acc : List (String × String))
    (it : DiffItem) (p : String) (h : it.a_path = some p) :
    stagedStep repo acc it =
      if p = "" then acc else dictInsert acc p (repo.cached_diff p) := by
  obtain ⟨ap⟩ := it
  cases h
  rfl

theorem staged_fold_sound (repo : RepoState) (P : String × String → Prop) :
    ∀ (items : List DiffItem) (acc : List (String × String)),
      (∀ it ∈ items, ∀ p, it.a_path = some p → p ≠ "" →
        P (p, repo.cached_diff p)) →
      (∀ e ∈ acc, P e) →
      ∀ e ∈ items.foldl (stagedStep repo) acc, P e := by
  intro items
  induction items with
  | nil =>
    intro acc _ hacc e he
    exact hacc e he
  | cons it items ih =>
    intro acc hitems hacc e he
    rw [List.foldl_cons] at he
    refine ih _ (fun it₁ h1 => hitems it₁ (List.mem_cons_of_mem it h1)) ?_ e he
    intro e₀ he₀
    cases hap : it.a_path with
    | none =>
      rw [stagedStep_none repo acc it hap] at he₀
      exact hacc e₀ he₀
    | some p =>
      rw [stagedStep_some repo acc it p hap] at he₀
      by_cases hp : p = ""
      · rw [if_pos hp] at he₀
        exact hacc e₀ he₀
      · rw [if_neg hp] at he₀
        exact dictInsert_sound acc p (repo.cached_diff p) P hacc
          (hitems it (List.mem_cons_self it items) p hap hp) e₀ he₀

theorem staged_fold_complete (repo : RepoState) :
    ∀ (items : List DiffItem) (acc : List (String × String)) (p : String),
      ((p, repo.cached_diff p) ∈ acc ∨
        ∃ it ∈ items, it.a_path = some p ∧ p ≠ "") →
      (p, repo.cached_diff p) ∈ items.foldl (stagedStep repo) acc := by
  intro items
  induction items with
  | nil =>
    intro acc p h
    rcases h with h | ⟨it, hmem, _⟩
    · exact h
    · simp at hmem
  | cons it items ih =>
    intro acc p h
    rw [List.foldl_cons]
    rcases h with h | ⟨it₀, hmem, hap, hp⟩
    · refine ih _ p (Or.inl ?_)
      cases hq0 : it.a_path with
      | none =>
        rw [stagedStep_none repo acc it hq0]
        exact h
      | some q =>
        rw [stagedStep_some repo acc it q hq0]
        by_cases hq : q = ""
        · rw [if_pos hq]
          exact h
        · rw [if_neg hq]
          exact dictInsert_mem_preserve acc q p repo.cached_diff h
    · rcases List.mem_cons.mp hmem with hit | hit
      · subst hit
        refine ih _ p (Or.inl ?_)
        rw [stagedStep_some repo acc _ p hap, if_neg hp]
        exact dictInsert_mem_self acc p (repo.cached_diff p)
      · exact ih _ p (Or.inr ⟨it₀, hit, hap, hp⟩)

theorem staged_fold_ne_nil (repo : RepoState) :
    ∀ (items : List DiffItem) (acc : List (String × String)),
      acc ≠ [] → items.foldl (stagedStep repo) acc ≠ [] := by
  intro items
  induction items with
  | nil =>
    intro acc h
    exact h
  | cons it items ih =>
    intro acc h
    rw [List.foldl_cons]
    refine ih _ ?_
    cases hap : it.a_path with
    | none =>
      rw [stagedStep_none repo acc it hap]
      exact h
    | some p =>
      rw [stagedStep_some repo acc it p hap]
      by_cases hp : p = ""
      · rw [if_pos hp]
        exact h
      · rw [if_neg hp]
        exact dictInsert_ne_nil acc p (repo.cached_diff p)

/-- C9: `get_staged_changes` builds its mapping from the staged-vs-HEAD
diff entries together with the new-file entries; every recorded entry is
keyed by an entry's source path and maps to the cached staged diff text
for that path; every entry with a (truthy) source path is recorded; and
when every diff entry carries a source path, the mapping is empty
exactly when there are no staged-change entries at all. -/
theorem spec_C9 (repo : RepoState) :
    (∀ p v, (p, v) ∈ get_staged_changes repo →
      v = repo.cached_diff p ∧
        ∃ it ∈ repo.head_diff ++ repo.none_diff, it.a_path = some p ∧ p ≠ "") ∧
    (∀ it ∈ repo.head_diff ++ repo.none_diff, ∀ p, it.a_path = some p →
      p ≠ "" → (p, repo.cached_diff p) ∈ get_staged_changes repo) ∧
    ((∀ it ∈ repo.head_diff ++ repo.none_diff,
        ∃ p, it.a_path = some p ∧ p ≠ "") →
      (get_staged_changes repo = [] ↔ repo.head_diff ++ repo.none_diff = [])) := by
  refine ⟨?_, ?_, ?_⟩
  · intro p v hmem
    exact staged_fold_sound repo
      (fun e => e.2 = repo.cached_diff e.1 ∧
        ∃ it ∈ repo.head_diff ++ repo.none_diff, it.a_path = some e.1 ∧ e.1 ≠ "")
      (repo.head_diff ++ repo.none_diff) []
      (fun it hit q hap hq => ⟨rfl, ⟨it, hit, hap, hq⟩⟩)
      (by simp) (p, v) hmem
  · intro it hmem p hap hp
    exact staged_fold_complete repo (repo.head_diff ++ repo.none_diff) [] p
      (Or.inr ⟨it, hmem, hap, hp⟩)
  · intro hall
    constructor
    · intro hempty
      cases hfull : repo.head_diff ++ repo.none_diff with
      | nil => rfl
      | cons it rest =>
        exfalso
        obtain ⟨p, hap, hp⟩ := hall it
          (by rw [hfull]; exact List.mem_cons_self it rest)
        have h1 : get_staged_changes repo =
            rest.foldl (stagedStep repo) (stagedStep repo [] it) := by
          unfold get_staged_changes
          rw [hfull, List.foldl_cons]
        have h2 : stagedStep repo [] it ≠ [] := by
          rw [stagedStep_some repo [] it p hap, if_neg hp]
          exact dictInsert_ne_nil [] p (repo.cached_diff p)
        rw [h1] at hempty
        exact staged_fold_ne_nil repo rest _ h2 hempty
    · intro hfull
      unfold get_staged_changes
      rw [hfull]
      rfl

theorem spec_C9_witness :
    ("a.py", "D") ∈
      get_staged_changes ⟨[⟨some "a.py"⟩], [], fun _ => "D"⟩ :=
  (spec_C9 ⟨[⟨some "a.py"⟩], [], fun _ => "D"⟩).2.1 ⟨some "a.py"⟩
    (List.mem_append_left _ (List.mem_cons_self _ _)) "a.py" rfl (by decide)

theorem mem_pyJoin_isInfix (sep n : String) :
    ∀ names : List String, n ∈ names → n.data <:+: (pyJoin sep names).data := by
  intro names
  induction names with
  | nil =>
    intro h
    simp at h
  | cons x rest ih =>
    intro h
    cases rest with
    | nil =>
      have hx := List.mem_singleton.mp h
      subst hx
      exact List.infix_refl _
    | cons y rest2 =>
      rcases List.mem_cons.mp h with hx | hx
      · subst hx
        refine ⟨[], (sep ++ pyJoin sep (y :: rest2)).data, ?_⟩
        rw [show pyJoin sep (n :: y :: rest2) =
          n ++ sep ++ pyJoin sep (y :: rest2) from rfl]
        simp [String.data_append, List.append_assoc]
      · obtain ⟨u, v, huv⟩ := ih hx
        refine ⟨(x ++ sep).data ++ u, v, ?_⟩
        rw [show pyJoin sep (x :: y :: rest2) =
          x ++ sep ++ pyJoin sep (y :: rest2) from rfl]
        simp [String.data_append, List.append_assoc, ← huv]

/-- The generation backend of `DiffAnalyzer.__init__` (analyzer.py
lines 28-32): constructing a model by name may fail (raise), and the
backend can list the currently available model names
(`genai.list_models()`). -/
structure GenBackend where
  make_model : String → Option Unit
  list_models : List String

/-- The model-selection part of `DiffAnalyzer.__init__` (analyzer.py
lines 28-32): build the model, and on failure abort construction with a
ValueError naming the requested model and enumerating the available
ones. -/
def analyzer_init (backend : GenBackend) (model_name : String) :
    Except String Unit :=
  match backend.make_model model_name with
  | some m => Except.ok m
  | none =>
    Except.error ("Invalid model name: " ++ model_name ++
      ". Available models: " ++ pyJoin ", " backend.list_models)

/-- C7: constructing the analyzer with a model name the backend does not
recognise fails with an error message that names the rejected model and
enumerates the backend's available model names: every listed name occurs
verbatim inside the message. -/
theorem spec_C7 (backend : GenBackend) (model_name n : String)
    (hfail : backend.make_model model_name = none)
    (hn : n ∈ backend.list_models) :
    analyzer_init backend model_name =
      Except.error ("Invalid model name: " ++ model_name ++
        ". Available models: " ++ pyJoin ", " backend.list_models) ∧
    n.data <:+: ("Invalid model name: " ++ model_name ++
      ". Available models: " ++ pyJoin ", " backend.list_models).data := by
  constructor
  · unfold analyzer_init
    rw [hfail]
  · obtain ⟨u, v, huv⟩ := mem_pyJoin_isInfix ", " n backend.list_models hn
    refine ⟨("Invalid model name: " ++ model_name ++
      ". Available models: ").data ++ u, v, ?_⟩
    simp [String.data_append, List.append_assoc, ← huv]

theorem spec_C7_witness :
    analyzer_init ⟨fun _ => none, ["gemini-2.0-flash"]⟩ "bad-model" =
      Except.error ("Invalid model name: " ++ "bad-model" ++
        ". Available models: " ++ pyJoin ", " ["gemini-2.0-flash"]) ∧
    "gemini-2.0-flash".data <:+: ("Invalid model name: " ++ "bad-model" ++
      ". Available models: " ++ pyJoin ", " ["gemini-2.0-flash"]).data :=
  spec_C7 ⟨fun _ => none, ["gemini-2.0-flash"]⟩ "bad-model"
    "gemini-2.0-flash" rfl (List.mem_singleton.mpr rfl)

/-- Outcome of one call to the remote generation backend: the response
text, or the description of the raised failure (`str(e)`). -/
inductive GenResult where
  | ok (text : String)
  | err (msg : String)

/-- The generation configuration passed to the backend (analyzer.py
lines 140-145): fields mirror max_output_tokens, temperature, top_p and
top_k of `genai.types.GenerationConfig`. -/
structure GenerationConfig where
  max_output_tokens : Nat
  temperature : ℚ
  top_p : ℚ
  top_k : Nat

/-- The configuration built for a given token budget: temperature 0.7,
top_p 0.8, top_k 40 are fixed in the source. -/
def generation_config (max_tokens : Nat) : GenerationConfig :=
  ⟨max_tokens, 0.7, 0.8, 40⟩

/-- The prompt template of `generate_commit_message` (analyzer.py lines
107-135), with the digest embedded verbatim. -/
def buildPrompt (changes_text : String) : String :=
  "Analyze these changes and generate a detailed git commit message:\n" ++
  changes_text ++
  "\n\nRequirements for the commit message:\n" ++
  "1. Start with a clear, concise title line (50-72 chars) that summarizes WHAT changed\n" ++
  "2. Leave one blank line after the title\n" ++
  "3. Follow with 2-4 paragraphs explaining:\n" ++
  "   - WHY these changes were needed\n" ++
  "   - HOW the changes address the need\n" ++
  "   - Any important technical details or trade-offs\n" ++
  "4. Use present tense and imperative mood\n" ++
  "5. If relevant, include at end of body:\n" ++
  "   - Breaking changes\n" ++
  "   - Related issues\n" ++
  "   - Migration notes\n" ++
  "   - Credit to contributors\n" ++
  "\nExample format:\n" ++
  "Title summarizing the change\n" ++
  "\nExplain why this change was needed and what problem it solves.\n" ++
  "Provide context about the approach taken and any important\n" ++
  "implementation details that future maintainers should know.\n" ++
  "\nInclude any breaking changes, migration notes, or related\n" ++
  "issues at the end as trailers.\n" ++
  "\nGenerate a commit message following ALL the above rules."

/-- `DiffAnalyzer.generate_commit_message` (analyzer.py lines 87-162),
instrumented for this verification: along with the returned string, the
list of (prompt, configuration) calls made to the backend is returned,
so that claims about when and how the backend is invoked are statable.
The empty-mapping sentinel, the prompt construction, the error
absorption and the response formatting follow the source; the unused
local `changed_files` of the source is omitted. -/
def run_generate (staged_changes : List (String × String))
    (backend : String → GenerationConfig → GenResult)
    (max_tokens : Nat := 300) :
    String × List (String × GenerationConfig) :=
  if staged_changes.isEmpty then ("No staged changes found", [])
  else
    let changes_text := prepare_diff_summary staged_changes
    let prompt := buildPrompt changes_text
    match backend prompt (generation_config max_tokens) with
    | GenResult.ok text =>
      (format_message text, [(prompt, generation_config max_tokens)])
    | GenResult.err e =>
      ("Error generating commit message: " ++ e,
        [(prompt, generation_config max_tokens)])

/-- The string returned by `DiffAnalyzer.generate_commit_message`. -/
def generate_commit_message (staged_changes : List (String × String))
    (backend : String → GenerationConfig → GenResult)
    (max_tokens : Nat := 300) : String :=
  (run_generate staged_changes backend max_tokens).1

/-- C1: with an empty staged-changes mapping, generate_commit_message
returns exactly the sentinel "No staged changes found" and the backend
is never invoked (the call trace is empty). -/
theorem spec_C1 (backend : String → GenerationConfig → GenResult)
    (max_tokens : Nat) :
    run_generate [] backend max_tokens = ("No staged changes found", []) ∧
    generate_commit_message [] backend max_tokens = "No staged changes found" :=
  ⟨rfl, rfl⟩

/-- C6: when the backend call raises (the generate call yields a
failure description), generate_commit_message does not propagate the
failure but returns the string "Error generating commit message: "
followed by that description. -/
theorem spec_C6 (staged_changes : List (String × String))
    (backend : String → GenerationConfig → GenResult) (max_tokens : Nat)
    (e : String) (hne : staged_changes ≠ [])
    (hb : backend (buildPrompt (prepare_diff_summary staged_changes))
      (generation_config max_tokens) = GenResult.err e) :
    generate_commit_message staged_changes backend max_tokens =
      "Error generating commit message: " ++ e := by
  cases staged_changes with
  | nil => exact absurd rfl hne
  | cons x xs =>
    simp [generate_commit_message, run_generate, hb]

theorem spec_C6_witness :
    generate_commit_message [("f.py", "+1")]
      (fun _ _ => GenResult.err "boom") 300 =
      "Error generating commit message: " ++ "boom" :=
  spec_C6 [("f.py", "+1")] (fun _ _ => GenResult.err "boom") 300 "boom"
    (by decide) rfl

/-- C8: every generation call passes exactly the configuration with
max_output_tokens equal to the max_tokens argument, temperature 0.7,
top_p 0.8 and top_k 40, independent of the input diffs; the token
budget defaults to 300. -/
theorem spec_C8 (staged_changes : List (String × String))
    (backend : String → GenerationConfig → GenResult) (max_tokens : Nat)
    (hne : staged_changes ≠ []) :
    (run_generate staged_changes backend max_tokens).2 =
      [(buildPrompt (prepare_diff_summary staged_changes),
        generation_config max_tokens)] ∧
    generation_config max_tokens = ⟨max_tokens, 0.7, 0.8, 40⟩ ∧
    (∀ (sc : List (String × String))
      (b : String → GenerationConfig → GenResult),
      run_generate sc b = run_generate sc b 300) := by
  refine ⟨?_, rfl, fun _ _ => rfl⟩
  cases staged_changes with
  | nil => exact absurd rfl hne
  | cons x xs =>
    cases hb : backend (buildPrompt (prepare_diff_summary (x :: xs)))
        (generation_config max_tokens) with
    | ok text => simp [run_generate, hb]
    | err e => simp [run_generate, hb]

theorem spec_C8_witness :
    (run_generate [("f.py", "+1")] (fun _ _ => GenResult.ok "msg") 300).2 =
      [(buildPrompt (prepare_diff_summary [("f.py", "+1")]),
        generation_config 300)] :=
  (spec_C8 [("f.py", "+1")] (fun _ _ => GenResult.ok "msg") 300 (by decide)).1

end DiffWhisperer
